import Mathlib

/-!
Verification of the subject statistics module `subject.py` of the
`dp_stat_inference` repository.

The module is embedded shallowly and exactly:
* Python floats are modelled as rationals (`ℚ`); all the module's float
  arithmetic (sums, products, divisions) is exact, the single genuinely
  irrational operation (`math.sqrt`) is kept symbolic (`Real.sqrt` applied
  to the exactly computed radicand).
* Python dicts are association lists in insertion order (`PyDict`).
* Raised exceptions are `Except PyError` results; a Python built-in
  exception class becomes a `PyError` constructor.
* `random.random()` draws are passed in explicitly as rational parameters.
-/

deriving instance DecidableEq for Except

namespace DpStat

/-- The Python exception classes that can be raised (directly or by the
builtins it calls) by code in `subject.py`. -/
inductive PyError where
  | keyError
  | indexError
  | assertionError
  | zeroDivisionError
  | valueError
  | nameError
  | typeError
  | attributeError
  deriving DecidableEq

/-- A Python `dict` with `String` keys: an association list in insertion
order (CPython dicts preserve insertion order).  An actual Python dict has
unique keys; theorems carry this as a `Nodup` hypothesis where it matters. -/
abbrev PyDict (α : Type) : Type := List (String × α)

/-- The keys of a dict, in insertion order (`d.keys()`). -/
def keysd {α : Type} (d : PyDict α) : List String :=
  d.map Prod.fst

/-- The values of a dict, in insertion order (`d.values()`). -/
def valuesd {α : Type} (d : PyDict α) : List α :=
  d.map Prod.snd

/-- Lookup `d[k]`: the value at the first entry whose key is `k`, raising
`KeyError` when there is none. -/
def getd {α : Type} : PyDict α → String → Except PyError α
  | [], _ => .error .keyError
  | (k, v) :: rest, g => if k = g then .ok v else getd rest g

/-- Assignment `d[k] = w`: replaces the first entry whose key is `k`
(keeping its position, as CPython does), or appends a new entry. -/
def setd {α : Type} : PyDict α → String → α → PyDict α
  | [], g, w => [(g, w)]
  | (k, v) :: rest, g, w => if k = g then (g, w) :: rest else (k, v) :: setd rest g w

/-- Membership `k in d`. -/
def containsd {α : Type} (d : PyDict α) (k : String) : Bool :=
  (keysd d).contains k

/-- Total lookup used on the specification side of theorems: the stored
value when the key is present, `0` otherwise. -/
def getd0 (d : PyDict ℚ) (g : String) : ℚ :=
  match getd d g with
  | .ok v => v
  | .error _ => 0

/-- Python `int(x)` applied to a float: truncation toward zero. -/
def pytrunc (q : ℚ) : ℤ :=
  if 0 ≤ q then ⌊q⌋ else ⌈q⌉

/-- Python list indexing `data[i]`: a negative index counts from the end,
and an index out of range raises `IndexError`. -/
def pyIndex (data : List ℚ) (i : ℤ) : Except PyError ℚ :=
  let j := if i < 0 then i + data.length else i
  if h : 0 ≤ j ∧ j < (data.length : ℤ) then
    .ok (data.get ⟨j.toNat, by omega⟩)
  else
    .error .indexError

/-- `_tile(data, p)`: the `p`-tile of `data` by linear interpolation between
the two bracketing order statistics (`assert 0 <= p < 1`; `data` is assumed
sorted by the caller). -/
def _tile (data : List ℚ) (p : ℚ) : Except PyError ℚ := do
  if ¬ (0 ≤ p ∧ p < 1) then throw PyError.assertionError
  let d := p * ((data.length : ℚ) - 1)
  let k := pytrunc d
  let r := d - (k : ℚ)
  let x0 ← pyIndex data k
  let x1 ← pyIndex data (k + 1)
  return x0 + r * (x1 - x0)

/-! ## The textual deserializer (`eval`-based in the source)

The string branches of `_convert_bounds` / `_convert_distribution` pass the
stored text to Python's `eval`.  We embed the relevant fragment: the parsed
form of the text is a `PyExpr`; literal expressions (numbers, strings,
tuples, mappings) evaluate to the corresponding `PyValue`, and a `call`
node — syntax *outside* the literal subset — is also evaluated by `eval`,
i.e. the named callee is executed for its side effects (modelled here as a
shell-style call returning exit status `0`).  `PyExpr.hasCall` marks the
expressions whose evaluation executes such arbitrary code. -/

/-- A Python value produced by evaluating the stored text. -/
inductive PyValue where
  | num (q : ℚ)
  | str (s : String)
  | tup (items : List PyValue)
  | dict (items : List (PyValue × PyValue))

/-- The parsed form of a stored text passed to `eval`: the literal subset
(numbers, strings, tuples, mappings) plus `call`, standing for any
non-literal expression whose evaluation executes code (for example
`__import__("os").system(...)`). -/
inductive PyExpr where
  | num (q : ℚ)
  | str (s : String)
  | tup (items : List PyExpr)
  | dict (items : List (PyExpr × PyExpr))
  | call (func : String) (arg : PyExpr)

mutual

/-- Python `eval` on the parsed text: literals evaluate to themselves; a
`call` evaluates its argument, executes the callee (an arbitrary-code side
effect) and yields the callee's return value (`0`, as for `os.system`). -/
def pyEval : PyExpr → Except PyError PyValue
  | .num q => .ok (.num q)
  | .str s => .ok (.str s)
  | .tup items => (pyEvalList items).map PyValue.tup
  | .dict items => (pyEvalPairs items).map PyValue.dict
  | .call _ arg => (pyEval arg).map (fun _ => .num 0)

def pyEvalList : List PyExpr → Except PyError (List PyValue)
  | [] => .ok []
  | e :: es => do
    let v ← pyEval e
    let vs ← pyEvalList es
    return v :: vs

def pyEvalPairs : List (PyExpr × PyExpr) → Except PyError (List (PyValue × PyValue))
  | [] => .ok []
  | (k, v) :: es => do
    let kv ← pyEval k
    let vv ← pyEval v
    let rest ← pyEvalPairs es
    return (kv, vv) :: rest

end

mutual

/-- `true` exactly when evaluating the expression executes a call, i.e. the
text is outside the restricted literal grammar and `eval` runs code. -/
def PyExpr.hasCall : PyExpr → Bool
  | .num _ => false
  | .str _ => false
  | .tup items => hasCallList items
  | .dict items => hasCallPairs items
  | .call _ _ => true

def hasCallList : List PyExpr → Bool
  | [] => false
  | e :: es => e.hasCall || hasCallList es

def hasCallPairs : List (PyExpr × PyExpr) → Bool
  | [] => false
  | (k, v) :: es => k.hasCall || v.hasCall || hasCallPairs es

end

/-- Coerces an evaluated boundary value to the `(lower, upper)` pair shape
used by the class (the source leaves `eval`'s result unchecked and would
only fail later, at tuple unpacking in `_midpoint`; the embedding rejects
other shapes here, with the `TypeError` that unpacking would raise). -/
def toBoundsPair (v : PyValue) : Except PyError (ℚ × ℚ) :=
  match v with
  | .tup [.num a, .num b] => .ok (a, b)
  | _ => .error .typeError

/-- Coerces `eval`'s result for boundary text to a typed dict (see
`toBoundsPair` for where the source would actually fail on other shapes). -/
def toBoundsDict (v : PyValue) : Except PyError (PyDict (ℚ × ℚ)) :=
  match v with
  | .dict items => items.mapM (fun kv =>
      match kv.1 with
      | .str k => (toBoundsPair kv.2).map (fun b => (k, b))
      | _ => .error .typeError)
  | _ => .error .typeError

/-- The numeric value of a decimal-digit character sequence. -/
def digitsToNat : List Char → ℕ → ℕ
  | [], acc => acc
  | c :: cs, acc => digitsToNat cs (acc * 10 + (c.toNat - 48))

/-- Python `float(v)` as applied in the distribution dict comprehension
and in the default `transform` of `bootstrap_grade_average`: a number
converts to itself; a decimal-digit string parses to its value (the
fragment of `float`'s string grammar the module's grade labels use); any
other value raises (`TypeError` / `ValueError`). -/
def pyFloatOfValue (v : PyValue) : Except PyError ℚ :=
  match v with
  | .num q => .ok q
  | .str s =>
    if s ≠ "" ∧ s.toList.all Char.isDigit then
      .ok ((digitsToNat s.toList 0 : ℕ) : ℚ)
    else .error .valueError
  | _ => .error .typeError

/-- `{k: float(v) for k, v in (...).items()}` applied to `eval`'s result:
anything but a dict lacks `.items()` and raises `AttributeError`. -/
def toDistDict (v : PyValue) : Except PyError (PyDict ℚ) :=
  match v with
  | .dict items => items.mapM (fun kv =>
      match kv.1 with
      | .str k => (pyFloatOfValue kv.2).map (fun q => (k, q))
      | _ => .error .typeError)
  | _ => .error .attributeError

/-- `_convert_bounds(data)`: the string case evaluates the stored text with
`eval` (`Sum.inr` holds its parsed form); the dict case binds the caller's
dict object itself — no copy is made. -/
def _convert_bounds (data : PyDict (ℚ × ℚ) ⊕ PyExpr) :
    Except PyError (PyDict (ℚ × ℚ)) :=
  match data with
  | .inr e => do toBoundsDict (← pyEval e)
  | .inl d => .ok d

/-- `_convert_distribution(data)`: the string case evaluates the stored
text with `eval` and coerces each value with `float`; the dict case binds
the caller's dict object itself — no copy is made. -/
def _convert_distribution (data : PyDict ℚ ⊕ PyExpr) :
    Except PyError (PyDict ℚ) :=
  match data with
  | .inr e => do toDistDict (← pyEval e)
  | .inl d => .ok d

/-- Lexicographic comparison of char sequences by Unicode code point —
the order CPython's string comparison (and hence `sorted`) uses. -/
def pyStrLeAux : List Char → List Char → Bool
  | [], _ => true
  | _ :: _, [] => false
  | a :: as, b :: bs =>
    if a < b then true
    else if b < a then false
    else pyStrLeAux as bs

/-- Python string comparison `a <= b` (code-point lexicographic). -/
def pyStrLe (a b : String) : Bool :=
  pyStrLeAux a.toList b.toList

/-- The propositional form of `pyStrLe`, used as the `sorted(...)` order. -/
def strle (a b : String) : Prop :=
  pyStrLe a b = true

instance : DecidableRel strle := fun a b => by
  unfold strle; infer_instance

/-! ## The `Subject` class -/

/-- The attribute state of a `Subject` instance.  `_memory` is the
instance-level memo dict; since `math.sqrt` (a Float operation) has no
exact rational embedding, the `"_sigma"` entry stores the exactly computed
radicand, and the stored standard deviation is `Real.sqrt` of it at every
use site — `sqrt` is a pure function of the cached value, so the memoized
behaviour is preserved exactly. -/
structure Subject where
  subject_id : ℤ
  name : String
  level : String
  boundaries : PyDict (ℚ × ℚ)
  distribution : PyDict ℚ
  _grades : List String
  _memory : PyDict ℚ
  deriving DecidableEq

/-- The re-normalization loop in `__init__`:
`for grade in self._grades: self.distribution[grade] /= total`
(the lookup happens first; dividing a float by `0.0` raises
`ZeroDivisionError`). -/
def normalizeLoop : List String → PyDict ℚ → ℚ → Except PyError (PyDict ℚ)
  | [], d, _ => .ok d
  | g :: gs, d, total => do
    let v ← getd d g
    if total = 0 then throw PyError.zeroDivisionError
    normalizeLoop gs (setd d g (v / total)) total

/-- `Subject.__init__`: converts the two inputs, computes the raw total,
sorts the grade labels, divides every weight by the total in place, and
starts with an empty memo dict.  Because `_convert_distribution`'s dict
branch binds the caller's dict object itself, the final `distribution`
field *is* the caller's mapping after construction. -/
def subject_init (subject_id : ℤ) (name level : String)
    (boundary_data : PyDict (ℚ × ℚ) ⊕ PyExpr)
    (distribution_data : PyDict ℚ ⊕ PyExpr) : Except PyError Subject := do
  let boundaries ← _convert_bounds boundary_data
  let distribution ← _convert_distribution distribution_data
  let total := (valuesd distribution).sum
  let _grades := (keysd distribution).insertionSort strle
  let distribution ← normalizeLoop _grades distribution total
  return { subject_id, name, level, boundaries, distribution, _grades,
           _memory := [] }

/-- The caller's distribution mapping as observed *after* constructing a
`Subject` from it: the source's dict branch is `result = data` (the same
object, no copy) and `__init__` then assigns into that object's entries,
so the caller's mapping after construction is the `distribution` field. -/
def caller_distribution_after_init (subject_id : ℤ) (name level : String)
    (boundary_data : PyDict (ℚ × ℚ) ⊕ PyExpr)
    (distribution_data : PyDict ℚ) : Except PyError (PyDict ℚ) :=
  (subject_init subject_id name level boundary_data
    (.inl distribution_data)).map Subject.distribution

/-- The loop body of `random_grade`: walks the grade sequence subtracting
each grade's weight from the running value `r`, breaking (and returning
the current grade) as soon as `r` goes negative; when the loop exhausts
the sequence the trailing `return grade` returns the last grade iterated;
on an empty sequence the name `grade` was never bound (`NameError`). -/
def gradeWalk (dist : PyDict ℚ) : List String → ℚ → Except PyError String
  | [], _ => .error .nameError
  | g :: gs, r => do
    let w ← getd dist g
    if r - w < 0 then return g
    match gs with
    | [] => return g
    | _ :: _ => gradeWalk dist gs (r - w)

/-- `random_grade()`, with the `random.random()` draw `u` passed
explicitly. -/
def Subject.random_grade (s : Subject) (u : ℚ) : Except PyError String :=
  gradeWalk s.distribution s._grades u

/-- `random_grade_sample(n)`: `n` independent calls to `random_grade`,
consuming one draw of the stream `us` each. -/
def Subject.random_grade_sample (s : Subject) (n : ℕ) (us : ℕ → ℚ) :
    Except PyError (List String) :=
  (List.range n).mapM (fun i => s.random_grade (us i))

/-- `sum(transform(grade) for grade in sample)`, left to right. -/
def sumTransform (transform : String → Except PyError ℚ) :
    List String → Except PyError ℚ
  | [] => .ok 0
  | g :: gs => do
    let v ← transform g
    let rest ← sumTransform transform gs
    return v + rest

/-- The default `transform` argument of `bootstrap_grade_average`:
`lambda grade: float(grade)`. -/
def defaultTransform (grade : String) : Except PyError ℚ :=
  pyFloatOfValue (.str grade)

/-- `bootstrap_grade_average(n, transform)`: the sum of the transformed
sample is computed first, then divided by `n` (so `n = 0` raises
`ZeroDivisionError` after the — empty — sample is drawn). -/
def Subject.bootstrap_grade_average (s : Subject) (n : ℕ)
    (transform : String → Except PyError ℚ) (us : ℕ → ℚ) :
    Except PyError ℚ := do
  let sample ← s.random_grade_sample n us
  let total ← sumTransform transform sample
  if (n : ℚ) = 0 then throw PyError.zeroDivisionError
  return total / (n : ℚ)

/-- `average_grade_confidence_interval(n, p, simulations)`: asserts
`0 <= p < 1`, runs `simulations` bootstrap trials (trial `i` consumes the
draw stream `us i`), sorts the trial means ascending, and returns the
`(0.5 - p/2)`- and `(0.5 + p/2)`-tiles. -/
def Subject.average_grade_confidence_interval (s : Subject) (n : ℕ) (p : ℚ)
    (simulations : ℕ) (us : ℕ → ℕ → ℚ) : Except PyError (ℚ × ℚ) := do
  if ¬ (0 ≤ p ∧ p < 1) then throw PyError.assertionError
  let means ← (List.range simulations).mapM
    (fun i => s.bootstrap_grade_average n defaultTransform (us i))
  let sorted := means.insertionSort (· ≤ ·)
  let low ← _tile sorted (1/2 - p/2)
  let high ← _tile sorted (1/2 + p/2)
  return (low, high)

/-- `_midpoint(grade)`: `lower, upper = self.boundaries[grade]` (a missing
grade raises `KeyError`), then `(lower + upper) / 2.0`. -/
def Subject._midpoint (s : Subject) (grade : String) : Except PyError ℚ := do
  let b ← getd s.boundaries grade
  return (b.1 + b.2) / 2

/-- `sum(self._midpoint(grade) * self.distribution[grade]
for grade in self._grades)`. -/
def meanSum (s : Subject) : List String → Except PyError ℚ
  | [] => .ok 0
  | g :: gs => do
    let m ← s._midpoint g
    let w ← getd s.distribution g
    let rest ← meanSum s gs
    return m * w + rest

/-- The `scaled_mean` property: on first access the weighted midpoint sum
is computed and stored in `_memory["_mu"]`; every access returns the
stored value. -/
def Subject.scaled_mean (s : Subject) : Except PyError (ℚ × Subject) := do
  let s ←
    if containsd s._memory "_mu" then pure s
    else do
      let v ← meanSum s s._grades
      pure { s with _memory := setd s._memory "_mu" v }
  let v ← getd s._memory "_mu"
  return (v, s)

/-- The radicand sum inside `scaled_standard_deviation`:
`sum((self._midpoint(grade) - self.scaled_mean) ** 2 *
self.distribution[grade] for grade in self._grades)`.  Each term reads the
`scaled_mean` property, which may memoize on the first term, so the state
is threaded through. -/
def varSum : Subject → List String → Except PyError (ℚ × Subject)
  | s, [] => .ok (0, s)
  | s, g :: gs => do
    let m ← s._midpoint g
    let (mu, s) ← s.scaled_mean
    let w ← getd s.distribution g
    let (rest, s) ← varSum s gs
    return ((m - mu) ^ 2 * w + rest, s)

/-- The `scaled_standard_deviation` property, as the exactly computed
radicand: on first access the weighted squared-deviation sum is computed
and stored in `_memory["_sigma"]`; the property's Float value is
`math.sqrt` of this, i.e. `Real.sqrt` of the returned rational (see
`Subject`). -/
def Subject.scaled_variance (s : Subject) : Except PyError (ℚ × Subject) := do
  let s ←
    if containsd s._memory "_sigma" then pure s
    else do
      let (v, s) ← varSum s s._grades
      pure { s with _memory := setd s._memory "_sigma" v }
  let v ← getd s._memory "_sigma"
  return (v, s)

/-- `z_score_for(scaled_mark)`:
`(scaled_mark - self.scaled_mean) / self.scaled_standard_deviation`.
The divisor is `sqrt` of the radicand, and `sqrt v == 0.0` exactly when
`v == 0.0` (for the nonnegative radicand), so the Float division raises
`ZeroDivisionError` exactly when the radicand is zero; otherwise the value
returned is the pair (numerator, radicand), whose Float quotient is
`numerator / Real.sqrt radicand`. -/
def Subject.z_score_for (s : Subject) (scaled_mark : ℚ) :
    Except PyError ((ℚ × ℚ) × Subject) := do
  let (mu, s) ← s.scaled_mean
  let (v, s) ← s.scaled_variance
  if v = 0 then throw PyError.zeroDivisionError
  return ((scaled_mark - mu, v), s)

/-! ## Order facts about the string comparison -/

theorem pyStrLeAux_total : ∀ as bs, pyStrLeAux as bs = true ∨ pyStrLeAux bs as = true
  | [], _ => by left; simp [pyStrLeAux]
  | _ :: _, [] => by right; simp [pyStrLeAux]
  | a :: as, b :: bs => by
    rcases lt_trichotomy a b with h | h | h
    · left; simp [pyStrLeAux, h]
    · rcases pyStrLeAux_total as bs with ih | ih
      · left; simp [pyStrLeAux, h, lt_irrefl, ih]
      · right; simp [pyStrLeAux, h.symm, lt_irrefl, ih]
    · right; simp [pyStrLeAux, h]

theorem pyStrLeAux_trans : ∀ as bs cs, pyStrLeAux as bs = true →
    pyStrLeAux bs cs = true → pyStrLeAux as cs = true
  | [], _, _ => by simp [pyStrLeAux]
  | _ :: _, [], _ => by simp [pyStrLeAux]
  | _ :: _, _ :: _, [] => by simp [pyStrLeAux]
  | a :: as, b :: bs, c :: cs => by
    intro h1 h2
    by_cases hab : a < b
    · by_cases hbc : b < c
      · simp [pyStrLeAux, hab.trans hbc]
      · by_cases hcb : c < b
        · simp [pyStrLeAux, hbc, hcb] at h2
        · have : b = c := le_antisymm (not_lt.mp hcb) (not_lt.mp hbc)
          simp [pyStrLeAux, this ▸ hab]
    · by_cases hba : b < a
      · simp [pyStrLeAux, hab, hba] at h1
      · have hab' : a = b := le_antisymm (not_lt.mp hba) (not_lt.mp hab)
        subst hab'
        simp only [pyStrLeAux, lt_irrefl, if_false] at h1
        by_cases hbc : a < c
        · simp [pyStrLeAux, hbc]
        · by_cases hcb : c < a
          · simp [pyStrLeAux, hbc, hcb] at h2
          · simp only [pyStrLeAux, hbc, hcb, if_false] at h2 ⊢
            exact pyStrLeAux_trans as bs cs h1 h2

instance : IsTotal String strle where
  total a b := pyStrLeAux_total a.toList b.toList

instance : IsTrans String strle where
  trans a b c := pyStrLeAux_trans a.toList b.toList c.toList

/-! ## Dictionary lemmas -/

theorem getd_setd_self {α : Type} (d : PyDict α) (g : String) (w : α) :
    getd (setd d g w) g = .ok w := by
  induction d with
  | nil => simp [setd, getd]
  | cons kv rest ih =>
    obtain ⟨k, v⟩ := kv
    by_cases h : k = g <;> simp [setd, getd, h, ih]

theorem getd_setd_ne {α : Type} (d : PyDict α) (g g' : String) (w : α)
    (h : g ≠ g') : getd (setd d g w) g' = getd d g' := by
  induction d with
  | nil => simp [setd, getd, h]
  | cons kv rest ih =>
    obtain ⟨k, v⟩ := kv
    by_cases hk : k = g
    · subst hk; simp [setd, getd, h]
    · by_cases hk' : k = g' <;>
        simp [setd, getd, hk, hk', ih, Ne.symm h]

theorem containsd_iff_mem {α : Type} (d : PyDict α) (k : String) :
    containsd d k = true ↔ k ∈ keysd d := by
  simp [containsd, List.elem_iff]

theorem getd_ok_of_mem_keys {α : Type} (d : PyDict α) (g : String)
    (h : g ∈ keysd d) : ∃ v, getd d g = .ok v := by
  induction d with
  | nil => simp [keysd] at h
  | cons kv rest ih =>
    obtain ⟨k, v⟩ := kv
    by_cases hk : k = g
    · exact ⟨v, by simp [getd, hk]⟩
    · have : g ∈ keysd rest := by
        simp [keysd] at h ⊢
        tauto
      obtain ⟨w, hw⟩ := ih this
      exact ⟨w, by simp [getd, hk, hw]⟩

theorem getd_eq_of_mem {α : Type} (d : PyDict α) (g : String) (v : α)
    (hnd : (keysd d).Nodup) (h : (g, v) ∈ d) : getd d g = .ok v := by
  induction d with
  | nil => simp at h
  | cons kv rest ih =>
    obtain ⟨k, w⟩ := kv
    simp only [keysd, List.map_cons, List.nodup_cons] at hnd
    rcases List.mem_cons.mp h with h | h
    · obtain ⟨rfl, rfl⟩ := Prod.mk.injEq .. ▸ h
      simp [getd]
    · have hk : k ≠ g := by
        rintro rfl
        exact hnd.1 (List.mem_map.mpr ⟨(k, v), h, rfl⟩)
      simp [getd, hk, ih hnd.2 h]

theorem keysd_setd_of_mem {α : Type} (d : PyDict α) (g : String) (w : α)
    (h : g ∈ keysd d) : keysd (setd d g w) = keysd d := by
  induction d with
  | nil => simp [keysd] at h
  | cons kv rest ih =>
    obtain ⟨k, v⟩ := kv
    by_cases hk : k = g
    · simp [setd, keysd, hk]
    · have : g ∈ keysd rest := by
        simp [keysd] at h ⊢
        tauto
      simp only [setd, hk, if_false, keysd, List.map_cons, List.cons.injEq, true_and]
      simpa [keysd] using ih this

theorem setd_eq_map_of_mem {α : Type} (d : PyDict α) (g : String) (w : α)
    (hnd : (keysd d).Nodup) (h : g ∈ keysd d) :
    setd d g w = d.map (fun kv => if kv.1 = g then (g, w) else kv) := by
  induction d with
  | nil => simp [keysd] at h
  | cons kv rest ih =>
    obtain ⟨k, v⟩ := kv
    simp only [keysd, List.map_cons, List.nodup_cons] at hnd
    by_cases hk : k = g
    · subst hk
    -- every other key differs from `k`, so the map is the identity on `rest`
      have hid : rest.map (fun kv => if kv.1 = k then (k, w) else kv) = rest.map id := by
        apply List.map_congr_left
        intro kv hkv
        have : kv.1 ≠ k := by
          rintro h1
          exact hnd.1 (List.mem_map.mpr ⟨kv, hkv, h1⟩)
        simp [this]
      simp [setd, hid]
    · have : g ∈ keysd rest := by
        simp [keysd] at h ⊢
        tauto
      simp [setd, hk, ih hnd.2 this]

theorem keysd_map_keep {α β : Type} (d : PyDict α) (f : String × α → β) :
    keysd (d.map (fun kv => (kv.1, f kv))) = keysd d := by
  simp [keysd, List.map_map, Function.comp]

theorem sum_values_map_div (d : PyDict ℚ) (t : ℚ) :
    (valuesd (d.map (fun kv => (kv.1, kv.2 / t)))).sum = (valuesd d).sum / t := by
  induction d with
  | nil => simp [valuesd]
  | cons kv rest ih => simp [valuesd, add_div] at ih ⊢; simp [ih]

/-- The re-normalization loop, characterized: over duplicate-free keys it
divides the value of every processed key by `total` and leaves the other
entries (and the entry order) unchanged. -/
theorem normalizeLoop_char (total : ℚ) (ht : total ≠ 0) :
    ∀ (gs : List String) (d : PyDict ℚ), (keysd d).Nodup → gs.Nodup →
    (∀ g ∈ gs, g ∈ keysd d) →
    normalizeLoop gs d total =
      .ok (d.map (fun kv => if kv.1 ∈ gs then (kv.1, kv.2 / total) else kv)) := by
  intro gs
  induction gs with
  | nil =>
    intro d _ _ _
    simp [normalizeLoop]
  | cons g gs ih =>
    intro d hnd hgs hcov
    have hg : g ∈ keysd d := hcov g (List.mem_cons_self g gs)
    obtain ⟨v, hv⟩ := getd_ok_of_mem_keys d g hg
    have hgs' : gs.Nodup := (List.nodup_cons.mp hgs).2
    have hgnotin : g ∉ gs := (List.nodup_cons.mp hgs).1
    have hkeys1 : keysd (setd d g (v / total)) = keysd d :=
      keysd_setd_of_mem d g (v / total) hg
    have ih' := ih (setd d g (v / total)) (hkeys1 ▸ hnd) hgs'
      (fun g' hg' => hkeys1 ▸ hcov g' (List.mem_cons_of_mem g hg'))
    have hset : setd d g (v / total) =
        d.map (fun kv => if kv.1 = g then (g, v / total) else kv) :=
      setd_eq_map_of_mem d g (v / total) hnd hg
    have hmap : (d.map (fun kv => if kv.1 = g then (g, v / total) else kv)).map
          (fun kv => if kv.1 ∈ gs then (kv.1, kv.2 / total) else kv) =
        d.map (fun kv => if kv.1 ∈ g :: gs then (kv.1, kv.2 / total) else kv) := by
      rw [List.map_map]
      apply List.map_congr_left
      intro kv hkv
      by_cases hk : kv.1 = g
      · have hv2 : getd d g = .ok kv.2 := by
          apply getd_eq_of_mem d g kv.2 hnd
          have hkv' : kv = (g, kv.2) := by rw [← hk]
          exact hkv' ▸ hkv
        have hveq : kv.2 = v := by
          rw [hv] at hv2
          exact (Except.ok.injEq .. ▸ hv2).symm
        simp [Function.comp, hk, hgnotin, hveq]
      · simp [Function.comp, hk, List.mem_cons]
    rw [normalizeLoop, hv]
    simp only [bind, Except.bind, pure, Except.pure, ht, if_false]
    rw [ih', hset, hmap]

/-- `subject_init` on structured (dict) inputs, characterized: the
boundaries pass through, every distribution weight is divided by the raw
total, the grades are the sorted raw keys, and the memo starts empty. -/
theorem subject_init_inl_char (sid : ℤ) (nm lv : String) (B : PyDict (ℚ × ℚ))
    (raw : PyDict ℚ) (hnd : (keysd raw).Nodup)
    (ht : (valuesd raw).sum ≠ 0) :
    subject_init sid nm lv (.inl B) (.inl raw) =
      .ok { subject_id := sid, name := nm, level := lv, boundaries := B,
            distribution := raw.map (fun kv => (kv.1, kv.2 / (valuesd raw).sum)),
            _grades := (keysd raw).insertionSort strle, _memory := [] } := by
  have hperm : List.Perm ((keysd raw).insertionSort strle) (keysd raw) :=
    List.perm_insertionSort strle (keysd raw)
  have hgs_nd : ((keysd raw).insertionSort strle).Nodup := hperm.nodup_iff.mpr hnd
  have hcov : ∀ g ∈ (keysd raw).insertionSort strle, g ∈ keysd raw :=
    fun g hg => hperm.mem_iff.mp hg
  have hall : ∀ kv ∈ raw, kv.1 ∈ (keysd raw).insertionSort strle :=
    fun kv hkv => hperm.mem_iff.mpr (List.mem_map.mpr ⟨kv, hkv, rfl⟩)
  have hfull : raw.map (fun kv =>
        if kv.1 ∈ (keysd raw).insertionSort strle
        then (kv.1, kv.2 / (valuesd raw).sum) else kv) =
      raw.map (fun kv => (kv.1, kv.2 / (valuesd raw).sum)) := by
    apply List.map_congr_left
    intro kv hkv
    simp [hall kv hkv]
  unfold subject_init _convert_bounds _convert_distribution
  simp only [bind, Except.bind, pure, Except.pure, Functor.map, Except.map]
  rw [normalizeLoop_char ((valuesd raw).sum) ht _ raw hnd hgs_nd hcov]
  simp only [keysd, valuesd] at hfull ⊢
  rw [hfull]

/-! ## Claim C5: weights are re-normalized to sum to 1 -/

/-- C5: for every `Subject` constructed from raw non-negative weights with
a positive total, each distribution weight afterwards equals its raw weight
divided by the raw total, and the distribution weights sum to exactly 1
(the arithmetic is exact here; the implementation does the same in floating
point). -/
theorem C5_distribution_normalized (sid : ℤ) (nm lv : String)
    (B : PyDict (ℚ × ℚ)) (raw : PyDict ℚ)
    (hnd : (keysd raw).Nodup)
    (hnn : ∀ v ∈ valuesd raw, 0 ≤ v)
    (hpos : 0 < (valuesd raw).sum) :
    ∃ s, subject_init sid nm lv (.inl B) (.inl raw) = .ok s ∧
      (∀ g v, (g, v) ∈ raw →
        getd s.distribution g = .ok (v / (valuesd raw).sum)) ∧
      (valuesd s.distribution).sum = 1 := by
  have ht : (valuesd raw).sum ≠ 0 := ne_of_gt hpos
  refine ⟨_, subject_init_inl_char sid nm lv B raw hnd ht, ?_, ?_⟩
  · intro g v hgv
    apply getd_eq_of_mem
    · show (keysd (raw.map (fun kv => (kv.1, kv.2 / (valuesd raw).sum)))).Nodup
      rw [keysd_map_keep]
      exact hnd
    · exact List.mem_map.mpr ⟨(g, v), hgv, rfl⟩
  · show (valuesd (raw.map (fun kv => (kv.1, kv.2 / (valuesd raw).sum)))).sum = 1
    rw [sum_values_map_div]
    exact div_self ht

theorem C5_witness :
    (keysd [("1", (1:ℚ)/4), ("2", (1:ℚ)/4)]).Nodup ∧
    (∀ v ∈ valuesd [("1", (1:ℚ)/4), ("2", (1:ℚ)/4)], 0 ≤ v) ∧
    0 < (valuesd [("1", (1:ℚ)/4), ("2", (1:ℚ)/4)]).sum ∧
    (∃ s, subject_init 7 "Mathematics" "SL"
        (.inl [("1", (0, 10)), ("2", (11, 20))])
        (.inl [("1", (1:ℚ)/4), ("2", (1:ℚ)/4)]) = .ok s ∧
      (∀ g v, (g, v) ∈ [("1", (1:ℚ)/4), ("2", (1:ℚ)/4)] →
        getd s.distribution g =
          .ok (v / (valuesd [("1", (1:ℚ)/4), ("2", (1:ℚ)/4)]).sum)) ∧
      (valuesd s.distribution).sum = 1) :=
  ⟨by decide, by norm_num [valuesd], by norm_num [valuesd],
    C5_distribution_normalized 7 "Mathematics" "SL" _ _ (by decide)
      (by norm_num [valuesd]) (by norm_num [valuesd])⟩

/-! ## Claim C2: structured mappings are NOT copied — construction
mutates the caller's mapping -/

/-- C2, counterexample: constructing a `Subject` from the caller's dict
`{"A": 0.5}` re-normalizes the caller's own mapping in place (the dict
branch of `_convert_distribution` binds the same object, not a shallow
copy), so afterwards the caller observes `{"A": 1.0}`, not the original. -/
theorem C2_counterexample :
    caller_distribution_after_init 4 "Economics" "HL"
        (.inl [("A", (0, 100))]) [("A", 1/2)] = .ok [("A", 1)] ∧
    [("A", (1:ℚ))] ≠ [("A", (1:ℚ)/2)] := by
  constructor
  · unfold caller_distribution_after_init
    rw [subject_init_inl_char 4 "Economics" "HL" _ _ (by decide)
      (by norm_num [valuesd])]
    show Except.ok _ = _
    norm_num [valuesd]
  · intro h
    have := List.head_eq_of_cons_eq h
    simp at this

/-- C2, amended: normalizing an already-structured mapping returns that
mapping itself unchanged (a pass-through of the same object, not a shallow
copy), and constructing a `Subject` from it then divides each of the
caller's weights by their total in place, so after construction the
caller's mapping holds the re-normalized weights `w / total` instead of
the original ones. -/
theorem C2_amended_no_copy_and_mutation (sid : ℤ) (nm lv : String)
    (B : PyDict (ℚ × ℚ)) (raw : PyDict ℚ)
    (hnd : (keysd raw).Nodup) (ht : (valuesd raw).sum ≠ 0) :
    _convert_distribution (.inl raw) = .ok raw ∧
    caller_distribution_after_init sid nm lv (.inl B) raw =
      .ok (raw.map (fun kv => (kv.1, kv.2 / (valuesd raw).sum))) := by
  refine ⟨rfl, ?_⟩
  unfold caller_distribution_after_init
  rw [subject_init_inl_char sid nm lv B raw hnd ht]
  rfl

theorem C2_amended_witness :
    (keysd [("A", (1:ℚ)/2)]).Nodup ∧ (valuesd [("A", (1:ℚ)/2)]).sum ≠ 0 ∧
    (_convert_distribution (.inl [("A", (1:ℚ)/2)]) = .ok [("A", (1:ℚ)/2)] ∧
     caller_distribution_after_init 4 "Economics" "HL"
        (.inl [("A", (0, 100))]) [("A", (1:ℚ)/2)] =
      .ok ([("A", (1:ℚ)/2)].map
        (fun kv => (kv.1, kv.2 / (valuesd [("A", (1:ℚ)/2)]).sum)))) :=
  ⟨by decide, by norm_num [valuesd],
    C2_amended_no_copy_and_mutation 4 "Economics" "HL" _ _ (by decide)
      (by norm_num [valuesd])⟩

/-! ## Claim C10: the percentile estimator always reads index `k + 1` -/

/-- C10: `_tile` reads `data[k + 1]` even when the interpolation weight is
zero, so on a one-element sequence every `p` in `[0, 1)` — including
`p = 0`, whose result should be the single element — raises `IndexError`. -/
theorem C10_tile_singleton_index_error (x p : ℚ) (h0 : 0 ≤ p) (h1 : p < 1) :
    _tile [x] p = .error .indexError := by
  have hp : (0:ℚ) ≤ p ∧ p < 1 := ⟨h0, h1⟩
  simp [_tile, hp, pytrunc, pyIndex, bind, Except.bind, pure, Except.pure]

theorem C10_witness :
    (0:ℚ) ≤ 0 ∧ (0:ℚ) < 1 ∧ _tile [(5:ℚ)] 0 = .error .indexError :=
  ⟨le_refl 0, by norm_num,
    C10_tile_singleton_index_error 5 0 (le_refl 0) (by norm_num)⟩

/-! ## Percentile estimator: evaluation and monotonicity -/

theorem pyIndex_ok (data : List ℚ) (i : ℤ) (h0 : 0 ≤ i)
    (h1 : i < (data.length : ℤ)) :
    pyIndex data i = .ok (data.getD i.toNat 0) := by
  unfold pyIndex
  have hni : ¬ i < 0 := by omega
  simp only [hni, if_false]
  rw [dif_pos ⟨h0, h1⟩]
  congr 1
  rw [List.getD_eq_getElem?_getD, List.getElem?_eq_getElem (by omega),
    Option.getD_some]
  simp [List.get_eq_getElem]

/-- Evaluation of `_tile` on a sequence of length at least 2 at
`p ∈ [0, 1)`: it succeeds, and the result interpolates between the order
statistics at `k = floor(p * (n - 1))` and `k + 1`. -/
theorem tile_eval (data : List ℚ) (p : ℚ) (h0 : 0 ≤ p) (h1 : p < 1)
    (hn : 2 ≤ data.length) :
    ∃ k : ℕ, k + 1 < data.length ∧
      (k : ℚ) ≤ p * ((data.length : ℚ) - 1) ∧
      p * ((data.length : ℚ) - 1) < (k : ℚ) + 1 ∧
      _tile data p = .ok (data.getD k 0 +
        (p * ((data.length : ℚ) - 1) - (k : ℚ)) *
        (data.getD (k + 1) 0 - data.getD k 0)) := by
  have hn2 : (2 : ℚ) ≤ (data.length : ℚ) := by exact_mod_cast hn
  set d : ℚ := p * ((data.length : ℚ) - 1) with hd_def
  have hd0 : 0 ≤ d := mul_nonneg h0 (by linarith)
  have hdlt : d < (data.length : ℚ) - 1 := by
    calc d < 1 * ((data.length : ℚ) - 1) :=
        mul_lt_mul_of_pos_right h1 (by linarith)
      _ = (data.length : ℚ) - 1 := one_mul _
  have hfl0 : 0 ≤ ⌊d⌋ := Int.floor_nonneg.mpr hd0
  have hfl_le : (⌊d⌋ : ℚ) ≤ d := Int.floor_le d
  have hfl_lt : d < (⌊d⌋ : ℚ) + 1 := Int.lt_floor_add_one d
  have hfl_top : ⌊d⌋ < (data.length : ℤ) - 1 := by
    have : (⌊d⌋ : ℚ) < (data.length : ℚ) - 1 := lt_of_le_of_lt hfl_le hdlt
    exact_mod_cast this
  have hcast : ((⌊d⌋.toNat : ℚ)) = ((⌊d⌋ : ℚ)) := by
    exact_mod_cast Int.toNat_of_nonneg hfl0
  refine ⟨⌊d⌋.toNat, ?_, ?_, ?_, ?_⟩
  · omega
  · rw [hcast]
    exact hfl_le
  · rw [hcast]
    exact hfl_lt
  · have htr : pytrunc d = ⌊d⌋ := if_pos hd0
    have htn : (⌊d⌋ + 1).toNat = ⌊d⌋.toNat + 1 := by omega
    unfold _tile
    rw [if_neg (by simp [h0, h1])]
    simp only [bind, Except.bind, pure, Except.pure]
    rw [← hd_def, htr,
      pyIndex_ok data ⌊d⌋ hfl0 (by omega),
      pyIndex_ok data (⌊d⌋ + 1) (by omega) (by omega)]
    simp only [bind, Except.bind]
    rw [htn, hcast]


theorem sorted_getD_mono (data : List ℚ) (hs : List.Sorted (· ≤ ·) data)
    {i j : ℕ} (hij : i ≤ j) (hj : j < data.length) :
    data.getD i 0 ≤ data.getD j 0 := by
  have hi : i < data.length := lt_of_le_of_lt hij hj
  rw [List.getD_eq_getElem?_getD, List.getElem?_eq_getElem hi, Option.getD_some,
    List.getD_eq_getElem?_getD, List.getElem?_eq_getElem hj, Option.getD_some]
  have := hs.rel_get_of_le (a := ⟨i, hi⟩) (b := ⟨j, hj⟩) hij
  simpa [List.get_eq_getElem] using this

/-- Monotonicity of `_tile` in `p` on a sorted sequence. -/
theorem tile_mono (data : List ℚ) (hs : List.Sorted (· ≤ ·) data)
    (hn : 2 ≤ data.length) {p q x y : ℚ} (hp0 : 0 ≤ p) (hpq : p ≤ q)
    (hq1 : q < 1) (hx : _tile data p = .ok x) (hy : _tile data q = .ok y) :
    x ≤ y := by
  obtain ⟨k, hk, hkle, hklt, hxe⟩ :=
    tile_eval data p hp0 (lt_of_le_of_lt hpq hq1) hn
  obtain ⟨m, hm, hmle, hmlt, hye⟩ := tile_eval data q (le_trans hp0 hpq) hq1 hn
  rw [hx] at hxe
  rw [hy] at hye
  have hxv := (Except.ok.injEq .. ▸ hxe)
  have hyv := (Except.ok.injEq .. ▸ hye)
  have hd : p * ((data.length : ℚ) - 1) ≤ q * ((data.length : ℚ) - 1) := by
    have hn2 : (2 : ℚ) ≤ (data.length : ℚ) := by exact_mod_cast hn
    exact mul_le_mul_of_nonneg_right hpq (by linarith)
  have hkm : k ≤ m := by
    have : (k : ℚ) < (m : ℚ) + 1 := lt_of_le_of_lt (le_trans hkle hd) hmlt
    exact_mod_cast Nat.lt_succ_iff.mp (by exact_mod_cast this)
  have hgk : data.getD k 0 ≤ data.getD (k + 1) 0 :=
    sorted_getD_mono data hs (Nat.le_succ k) hk
  have hgm : data.getD m 0 ≤ data.getD (m + 1) 0 :=
    sorted_getD_mono data hs (Nat.le_succ m) hm
  rcases Nat.eq_or_lt_of_le hkm with rfl | hlt
  · -- same bracket: the interpolation weight grows
    have hr : p * ((data.length : ℚ) - 1) - (k : ℚ) ≤
        q * ((data.length : ℚ) - 1) - (k : ℚ) := by linarith
    have := mul_le_mul_of_nonneg_right hr (by linarith : (0:ℚ) ≤
      data.getD (k + 1) 0 - data.getD k 0)
    rw [hxv, hyv]
    linarith
  · -- different brackets: pass through the order statistics between them
    have hx_le : x ≤ data.getD (k + 1) 0 := by
      have hr1 : p * ((data.length : ℚ) - 1) - (k : ℚ) ≤ 1 := by linarith
      have := mul_le_mul_of_nonneg_right hr1 (by linarith : (0:ℚ) ≤
        data.getD (k + 1) 0 - data.getD k 0)
      rw [hxv]
      linarith
    have hmid : data.getD (k + 1) 0 ≤ data.getD m 0 :=
      sorted_getD_mono data hs hlt (Nat.lt_of_succ_lt hm)
    have hy_ge : data.getD m 0 ≤ y := by
      have hr0 : 0 ≤ q * ((data.length : ℚ) - 1) - (m : ℚ) := by linarith
      have := mul_nonneg hr0 (by linarith : (0:ℚ) ≤
        data.getD (m + 1) 0 - data.getD m 0)
      rw [hyv]
      linarith
    linarith

/-! ## Claim C6: percentile at 0, and monotonicity in `p` -/

/-- C6: on a sorted sequence of at least two elements, `_tile(data, 0)`
returns the first element, and `_tile(data, p)` is monotonically
non-decreasing in `p` over `[0, 1)`. -/
theorem C6_percentile_zero_and_monotone (data : List ℚ)
    (hs : List.Sorted (· ≤ ·) data) (hn : 2 ≤ data.length) :
    _tile data 0 = .ok data.headI ∧
    ∀ p q x y, 0 ≤ p → p ≤ q → q < 1 →
      _tile data p = .ok x → _tile data q = .ok y → x ≤ y := by
  constructor
  · obtain ⟨k, hk, hkle, hklt, he⟩ :=
      tile_eval data 0 (le_refl 0) (by norm_num) hn
    have hk0 : k = 0 := by
      have h1 : (k : ℚ) ≤ 0 := by simpa using hkle
      exact_mod_cast Nat.le_zero.mp (by exact_mod_cast h1)
    subst hk0
    rw [he]
    have hgd : data[0]?.getD 0 = data.headI := by
      cases data with
      | nil => simp at hn
      | cons a rest => simp
    simp [hgd]
  · intro p q x y hp0 hpq hq1 hx hy
    exact tile_mono data hs hn hp0 hpq hq1 hx hy

theorem C6_witness :
    List.Sorted (· ≤ ·) [(1:ℚ), 2] ∧ 2 ≤ [(1:ℚ), 2].length ∧
    (_tile [(1:ℚ), 2] 0 = .ok [(1:ℚ), 2].headI ∧
     ∀ p q x y, 0 ≤ p → p ≤ q → q < 1 →
       _tile [(1:ℚ), 2] p = .ok x → _tile [(1:ℚ), 2] q = .ok y → x ≤ y) :=
  ⟨by norm_num [List.sorted_cons], by norm_num,
    C6_percentile_zero_and_monotone _ (by norm_num [List.sorted_cons])
      (by norm_num)⟩

/-! ## Memoization of the derived statistics -/

/-- The total version of `_midpoint` used on the specification side. -/
def mid0 (s : Subject) (g : String) : ℚ :=
  match s._midpoint g with
  | .ok v => v
  | .error _ => 0

/-- The weighted midpoint sum as the spec states it (a pure value). -/
def scaledMeanSpec (s : Subject) : ℚ :=
  (s._grades.map (fun g => mid0 s g * getd0 s.distribution g)).sum

/-- The weighted squared-deviation sum as the spec states it. -/
def scaledVarSpec (s : Subject) : ℚ :=
  (s._grades.map
    (fun g => (mid0 s g - scaledMeanSpec s) ^ 2 * getd0 s.distribution g)).sum

theorem containsd_of_getd_ok {α : Type} (d : PyDict α) (g : String) (v : α)
    (h : getd d g = .ok v) : containsd d g = true := by
  rw [containsd_iff_mem]
  induction d with
  | nil => simp [getd] at h
  | cons kv rest ih =>
    obtain ⟨k, w⟩ := kv
    by_cases hk : k = g
    · simp [keysd, hk]
    · simp only [getd, hk, if_false] at h
      have := ih h
      simp [keysd] at this ⊢
      tauto

/-- A successful `scaled_mean` read: the returned value is stored under
`"_mu"` in the returned state, and every attribute other than the memo is
unchanged. -/
theorem scaled_mean_ok (s : Subject) (mu : ℚ) (s₁ : Subject)
    (h : s.scaled_mean = .ok (mu, s₁)) :
    getd s₁._memory "_mu" = .ok mu ∧
    s₁.subject_id = s.subject_id ∧ s₁.name = s.name ∧ s₁.level = s.level ∧
    s₁.boundaries = s.boundaries ∧ s₁.distribution = s.distribution ∧
    s₁._grades = s._grades := by
  unfold Subject.scaled_mean at h
  by_cases hc : containsd s._memory "_mu" = true
  · rw [if_pos hc] at h
    simp only [bind, Except.bind, pure, Except.pure] at h
    cases hg : getd s._memory "_mu" with
    | ok w =>
      rw [hg] at h
      obtain ⟨h1, h2⟩ := Prod.mk.injEq .. ▸ (Except.ok.injEq .. ▸ h)
      subst h1; subst h2
      exact ⟨hg, rfl, rfl, rfl, rfl, rfl, rfl⟩
    | error e => rw [hg] at h; exact absurd h (by simp)
  · rw [if_neg hc] at h
    cases hms : meanSum s s._grades with
    | ok w =>
      rw [hms] at h
      simp only [bind, Except.bind, pure, Except.pure, getd_setd_self] at h
      obtain ⟨h1, h2⟩ := Prod.mk.injEq .. ▸ (Except.ok.injEq .. ▸ h)
      subst h1
      subst h2
      exact ⟨getd_setd_self .., rfl, rfl, rfl, rfl, rfl, rfl⟩
    | error e =>
      rw [hms] at h
      simp only [bind, Except.bind, pure, Except.pure] at h
      exact Except.noConfusion h

/-- A cached `scaled_mean` read returns the stored value and leaves the
state untouched. -/
theorem scaled_mean_cached (s : Subject) (mu : ℚ)
    (h : getd s._memory "_mu" = .ok mu) :
    s.scaled_mean = .ok (mu, s) := by
  unfold Subject.scaled_mean
  rw [if_pos (containsd_of_getd_ok _ _ _ h)]
  simp [bind, Except.bind, pure, Except.pure, h]

/-- A cached `scaled_standard_deviation` read (of the stored radicand)
returns the stored value and leaves the state untouched. -/
theorem scaled_variance_cached (s : Subject) (v : ℚ)
    (h : getd s._memory "_sigma" = .ok v) :
    s.scaled_variance = .ok (v, s) := by
  unfold Subject.scaled_variance
  rw [if_pos (containsd_of_getd_ok _ _ _ h)]
  simp [bind, Except.bind, pure, Except.pure, h]

/-- While the mean is cached, the radicand sum does not change the state. -/
theorem varSum_state (mu : ℚ) : ∀ (gs : List String) (s : Subject),
    getd s._memory "_mu" = .ok mu → ∀ (r : ℚ) (s' : Subject),
    varSum s gs = .ok (r, s') → s' = s := by
  intro gs
  induction gs with
  | nil =>
    intro s _ r s' h
    unfold varSum at h
    exact ((Prod.mk.injEq .. ▸ (Except.ok.injEq .. ▸ h)).2).symm
  | cons g gs ih =>
    intro s hmu r s' h
    unfold varSum at h
    cases hm : s._midpoint g with
    | error e =>
      rw [hm] at h
      simp only [bind, Except.bind, pure, Except.pure] at h
      exact Except.noConfusion h
    | ok m =>
      rw [hm, scaled_mean_cached s mu hmu] at h
      simp only [bind, Except.bind, pure, Except.pure] at h
      cases hw : getd s.distribution g with
      | error e =>
        rw [hw] at h
        simp only [bind, Except.bind, pure, Except.pure] at h
        exact Except.noConfusion h
      | ok w =>
        rw [hw] at h
        simp only [bind, Except.bind, pure, Except.pure] at h
        cases hrest : varSum s gs with
        | error e =>
          rw [hrest] at h
          simp only [bind, Except.bind, pure, Except.pure] at h
          exact Except.noConfusion h
        | ok pr =>
          obtain ⟨rest, s''⟩ := pr
          rw [hrest] at h
          simp only [bind, Except.bind, pure, Except.pure] at h
          have hs'' : s'' = s := ih s hmu rest s'' hrest
          subst hs''
          exact ((Prod.mk.injEq .. ▸ (Except.ok.injEq .. ▸ h)).2).symm

/-- A successful `scaled_standard_deviation` read (radicand), while the
mean is cached: the returned radicand is stored under `"_sigma"`, the
`"_mu"` entry survives, and every attribute other than the memo is
unchanged. -/
theorem scaled_variance_ok (s : Subject) (mu v : ℚ) (s₂ : Subject)
    (hmu : getd s._memory "_mu" = .ok mu)
    (h : s.scaled_variance = .ok (v, s₂)) :
    getd s₂._memory "_sigma" = .ok v ∧
    getd s₂._memory "_mu" = .ok mu ∧
    s₂.subject_id = s.subject_id ∧ s₂.name = s.name ∧ s₂.level = s.level ∧
    s₂.boundaries = s.boundaries ∧ s₂.distribution = s.distribution ∧
    s₂._grades = s._grades := by
  unfold Subject.scaled_variance at h
  by_cases hc : containsd s._memory "_sigma" = true
  · rw [if_pos hc] at h
    simp only [bind, Except.bind, pure, Except.pure] at h
    cases hg : getd s._memory "_sigma" with
    | ok w =>
      rw [hg] at h
      obtain ⟨h1, h2⟩ := Prod.mk.injEq .. ▸ (Except.ok.injEq .. ▸ h)
      subst h1; subst h2
      exact ⟨hg, hmu, rfl, rfl, rfl, rfl, rfl, rfl⟩
    | error e => rw [hg] at h; exact absurd h (by simp)
  · rw [if_neg hc] at h
    cases hvs : varSum s s._grades with
    | ok pr =>
      obtain ⟨w, s''⟩ := pr
      rw [hvs] at h
      simp only [bind, Except.bind, pure, Except.pure, getd_setd_self] at h
      have hs'' : s'' = s := varSum_state mu s._grades s hmu w s'' hvs
      subst hs''
      obtain ⟨h1, h2⟩ := Prod.mk.injEq .. ▸ (Except.ok.injEq .. ▸ h)
      rw [← h2, ← h1]
      refine ⟨getd_setd_self .., ?_, rfl, rfl, rfl, rfl, rfl, rfl⟩
      show getd (setd s''._memory "_sigma" w) "_mu" = Except.ok mu
      exact (getd_setd_ne _ _ _ _ (by decide)).trans hmu
    | error e =>
      rw [hvs] at h
      simp only [bind, Except.bind, pure, Except.pure] at h
      exact Except.noConfusion h

/-! ## Evaluation of the derived statistics from empty memo -/

theorem midpoint_ok (s : Subject) (g : String) (b : ℚ × ℚ)
    (hb : getd s.boundaries g = .ok b) :
    s._midpoint g = .ok ((b.1 + b.2) / 2) := by
  simp [Subject._midpoint, hb, bind, Except.bind, pure, Except.pure]

theorem mid0_eq (s : Subject) (g : String) (m : ℚ)
    (h : s._midpoint g = .ok m) : mid0 s g = m := by
  simp [mid0, h]

theorem getd0_eq (d : PyDict ℚ) (g : String) (v : ℚ)
    (h : getd d g = .ok v) : getd0 d g = v := by
  simp [getd0, h]

theorem meanSum_eval : ∀ (gs : List String) (s : Subject),
    (∀ g ∈ gs, g ∈ keysd s.boundaries ∧ g ∈ keysd s.distribution) →
    meanSum s gs =
      .ok ((gs.map (fun g => mid0 s g * getd0 s.distribution g)).sum) := by
  intro gs
  induction gs with
  | nil => intro s _; simp [meanSum]
  | cons g gs ih =>
    intro s hcov
    obtain ⟨hgb, hgd⟩ := hcov g (List.mem_cons_self g gs)
    obtain ⟨b, hb⟩ := getd_ok_of_mem_keys s.boundaries g hgb
    obtain ⟨w, hw⟩ := getd_ok_of_mem_keys s.distribution g hgd
    rw [meanSum, midpoint_ok s g b hb]
    simp only [bind, Except.bind, pure, Except.pure]
    rw [hw]
    simp only [bind, Except.bind, pure, Except.pure]
    rw [ih s (fun g' hg' => hcov g' (List.mem_cons_of_mem g hg'))]
    simp only [bind, Except.bind, pure, Except.pure, List.map_cons,
      List.sum_cons]
    rw [mid0_eq s g _ (midpoint_ok s g b hb), getd0_eq _ _ _ hw]

theorem varSum_eval (mu : ℚ) : ∀ (gs : List String) (s : Subject),
    getd s._memory "_mu" = .ok mu →
    (∀ g ∈ gs, g ∈ keysd s.boundaries ∧ g ∈ keysd s.distribution) →
    varSum s gs =
      .ok ((gs.map
        (fun g => (mid0 s g - mu) ^ 2 * getd0 s.distribution g)).sum, s) := by
  intro gs
  induction gs with
  | nil => intro s _ _; simp [varSum]
  | cons g gs ih =>
    intro s hmu hcov
    obtain ⟨hgb, hgd⟩ := hcov g (List.mem_cons_self g gs)
    obtain ⟨b, hb⟩ := getd_ok_of_mem_keys s.boundaries g hgb
    obtain ⟨w, hw⟩ := getd_ok_of_mem_keys s.distribution g hgd
    rw [varSum, midpoint_ok s g b hb]
    simp only [bind, Except.bind, pure, Except.pure]
    rw [scaled_mean_cached s mu hmu]
    simp only [bind, Except.bind, pure, Except.pure]
    rw [hw]
    simp only [bind, Except.bind, pure, Except.pure]
    rw [ih s hmu (fun g' hg' => hcov g' (List.mem_cons_of_mem g hg'))]
    simp only [bind, Except.bind, pure, Except.pure, List.map_cons,
      List.sum_cons]
    rw [mid0_eq s g _ (midpoint_ok s g b hb), getd0_eq _ _ _ hw]

/-- Reading `scaled_mean` from an empty memo computes the weighted
midpoint sum and stores it under `"_mu"`. -/
theorem scaled_mean_eval (s : Subject) (hmem : s._memory = [])
    (hcov : ∀ g ∈ s._grades, g ∈ keysd s.boundaries ∧ g ∈ keysd s.distribution) :
    s.scaled_mean =
      .ok (scaledMeanSpec s, { s with _memory := [("_mu", scaledMeanSpec s)] }) := by
  unfold Subject.scaled_mean
  rw [if_neg (by simp [containsd, keysd, hmem])]
  rw [meanSum_eval s._grades s hcov]
  simp only [bind, Except.bind, pure, Except.pure, hmem, setd, getd,
    if_pos rfl]
  rfl

/-- Reading the standard deviation's radicand with `"_mu"` cached and
`"_sigma"` not yet cached computes the weighted squared-deviation sum and
stores it under `"_sigma"`. -/
theorem scaled_variance_eval (s : Subject) (mu : ℚ)
    (hmem : s._memory = [("_mu", mu)])
    (hcov : ∀ g ∈ s._grades, g ∈ keysd s.boundaries ∧ g ∈ keysd s.distribution) :
    s.scaled_variance =
      .ok ((s._grades.map
          (fun g => (mid0 s g - mu) ^ 2 * getd0 s.distribution g)).sum,
        { s with _memory := [("_mu", mu),
            ("_sigma", (s._grades.map
              (fun g => (mid0 s g - mu) ^ 2 * getd0 s.distribution g)).sum)] }) := by
  have hmu : getd s._memory "_mu" = .ok mu := by simp [hmem, getd]
  unfold Subject.scaled_variance
  rw [if_neg (by simp [containsd, keysd, hmem, List.contains])]
  rw [varSum_eval mu s._grades s hmu hcov]
  simp only [bind, Except.bind, pure, Except.pure, hmem, setd,
    show ¬ ("_mu" = "_sigma") from by decide, if_false, if_pos rfl, getd]
  simp [getd, show ¬ ("_mu" = "_sigma") from by decide]

/-! ## Claim C4: the derived statistics are memoized once, never
invalidated -/

/-- C4: after a first read of `scaled_mean` and of the (radicand of)
`scaled_standard_deviation`, every later read returns the identical cached
value and leaves the state unchanged — even if the boundary and
distribution mappings are replaced by arbitrary other mappings in between:
the memo transitions from uninitialized to memoized once and is never
invalidated. -/
theorem C4_memoized_once_never_invalidated (s : Subject) (mu v : ℚ)
    (s₁ s₂ : Subject) (B : PyDict (ℚ × ℚ)) (D : PyDict ℚ)
    (hm : s.scaled_mean = .ok (mu, s₁))
    (hv : s₁.scaled_variance = .ok (v, s₂)) :
    ({ s₂ with boundaries := B, distribution := D }).scaled_mean =
      .ok (mu, { s₂ with boundaries := B, distribution := D }) ∧
    ({ s₂ with boundaries := B, distribution := D }).scaled_variance =
      .ok (v, { s₂ with boundaries := B, distribution := D }) := by
  obtain ⟨hmu₁, _, _, _, _, _, _⟩ := scaled_mean_ok s mu s₁ hm
  obtain ⟨hsig₂, hmu₂, _, _, _, _, _, _⟩ :=
    scaled_variance_ok s₁ mu v s₂ hmu₁ hv
  exact ⟨scaled_mean_cached _ _ hmu₂, scaled_variance_cached _ _ hsig₂⟩

/-- A concrete two-grade subject, its state after the first `scaled_mean`
read, and its state after the following standard-deviation read. -/
def sampleSubject : Subject :=
  { subject_id := 1, name := "s", level := "l",
    boundaries := [("1", (0, 10)), ("2", (10, 20))],
    distribution := [("1", 1/2), ("2", 1/2)],
    _grades := ["1", "2"], _memory := [] }

def sampleSubjectMu : Subject :=
  { sampleSubject with _memory := [("_mu", 10)] }

def sampleSubjectMuSigma : Subject :=
  { sampleSubject with _memory := [("_mu", 10), ("_sigma", 25)] }

theorem sampleSubject_mean_value : scaledMeanSpec sampleSubject = 10 := by
  norm_num [scaledMeanSpec, mid0, getd0, Subject._midpoint, getd,
    sampleSubject, bind, Except.bind, pure, Except.pure,
    show ¬ (("1":String) = "2") from by decide,
    show ¬ (("2":String) = "1") from by decide]

theorem sampleSubject_mean_read :
    sampleSubject.scaled_mean = .ok (10, sampleSubjectMu) := by
  have h := scaled_mean_eval sampleSubject rfl (by decide)
  rw [sampleSubject_mean_value] at h
  exact h

theorem sampleSubject_var_value :
    (sampleSubjectMu._grades.map (fun g =>
      (mid0 sampleSubjectMu g - 10) ^ 2 *
        getd0 sampleSubjectMu.distribution g)).sum = 25 := by
  norm_num [mid0, getd0, Subject._midpoint, getd, sampleSubjectMu,
    sampleSubject, bind, Except.bind, pure, Except.pure,
    show ¬ (("1":String) = "2") from by decide,
    show ¬ (("2":String) = "1") from by decide]

theorem sampleSubject_var_read :
    sampleSubjectMu.scaled_variance = .ok (25, sampleSubjectMuSigma) := by
  have h := scaled_variance_eval sampleSubjectMu 10 rfl (by decide)
  rw [sampleSubject_var_value] at h
  exact h

theorem C4_witness :
    sampleSubject.scaled_mean = .ok (10, sampleSubjectMu) ∧
    sampleSubjectMu.scaled_variance = .ok (25, sampleSubjectMuSigma) ∧
    (({ sampleSubjectMuSigma with boundaries := [], distribution := [] }).scaled_mean =
        .ok (10, { sampleSubjectMuSigma with boundaries := [], distribution := [] }) ∧
      ({ sampleSubjectMuSigma with boundaries := [], distribution := [] }).scaled_variance =
        .ok (25, { sampleSubjectMuSigma with boundaries := [], distribution := [] })) :=
  ⟨sampleSubject_mean_read, sampleSubject_var_read,
    C4_memoized_once_never_invalidated sampleSubject 10 25
      sampleSubjectMu sampleSubjectMuSigma [] []
      sampleSubject_mean_read sampleSubject_var_read⟩

/-! ## Claim C9: the midpoint / mean / standard-deviation formulas -/

/-- C9: with boundary coverage of all grades, `_midpoint` returns the
boundary interval's midpoint `(lower + upper) / 2`; `scaled_mean` is the
sum over the grades of `midpoint(g) * distribution[g]`; and the scaled
standard deviation is the square root of the sum over the grades of
`(midpoint(g) - scaled_mean)^2 * distribution[g]`. -/
theorem C9_midpoint_mean_and_deviation (s : Subject)
    (hbnd : (keysd s.boundaries).Nodup)
    (hmem : s._memory = [])
    (hcov : ∀ g ∈ s._grades, g ∈ keysd s.boundaries ∧ g ∈ keysd s.distribution) :
    (∀ g l u, (g, (l, u)) ∈ s.boundaries → s._midpoint g = .ok ((l + u) / 2)) ∧
    (∃ s₁ s₂ v,
      s.scaled_mean = .ok (scaledMeanSpec s, s₁) ∧
      s₁.scaled_variance = .ok (v, s₂) ∧
      v = scaledVarSpec s ∧
      Real.sqrt (v : ℝ) = Real.sqrt ((scaledVarSpec s : ℝ))) := by
  constructor
  · intro g l u hglu
    exact midpoint_ok s g (l, u) (getd_eq_of_mem s.boundaries g (l, u) hbnd hglu)
  · refine ⟨{ s with _memory := [("_mu", scaledMeanSpec s)] }, _, _,
      scaled_mean_eval s hmem hcov, scaled_variance_eval _ (scaledMeanSpec s) rfl hcov, ?_, ?_⟩
    · rfl
    · rfl

theorem C9_witness :
    (keysd sampleSubject.boundaries).Nodup ∧
    sampleSubject._memory = [] ∧
    (∀ g ∈ sampleSubject._grades,
      g ∈ keysd sampleSubject.boundaries ∧ g ∈ keysd sampleSubject.distribution) ∧
    ((∀ g l u, (g, (l, u)) ∈ sampleSubject.boundaries →
        sampleSubject._midpoint g = .ok ((l + u) / 2)) ∧
     (∃ s₁ s₂ v,
       sampleSubject.scaled_mean = .ok (scaledMeanSpec sampleSubject, s₁) ∧
       s₁.scaled_variance = .ok (v, s₂) ∧
       v = scaledVarSpec sampleSubject ∧
       Real.sqrt (v : ℝ) = Real.sqrt ((scaledVarSpec sampleSubject : ℝ)))) :=
  ⟨by decide, rfl, by decide,
    C9_midpoint_mean_and_deviation sampleSubject (by decide) rfl (by decide)⟩

/-! ## Claim C3: z-score on a degenerate distribution -/

/-- A degenerate single-grade subject: every weight is on grade `"7"`,
so the variance radicand is `0`. -/
def degenerateSubject : Subject :=
  { subject_id := 11, name := "Art", level := "HL",
    boundaries := [("7", (68, 100))], distribution := [("7", 1)],
    _grades := ["7"], _memory := [] }

/-- C3, counterexample: on a degenerate single-grade subject the source's
`z_score_for` raises the *built-in* `ZeroDivisionError` — the code defines
no `DegenerateDistributionError` class at all (no error class of the
module's own appears anywhere in `subject.py`). -/
theorem C3_counterexample :
    (subject_init 11 "Art" "HL" (.inl [("7", (68, 100))])
        (.inl [("7", 1)])).bind (fun s => s.z_score_for 50) =
      .error .zeroDivisionError := by
  norm_num [subject_init, _convert_bounds, _convert_distribution, valuesd,
    keysd, normalizeLoop, getd, setd, List.insertionSort, List.orderedInsert,
    Subject.z_score_for, Subject.scaled_mean, Subject.scaled_variance,
    Subject._midpoint, meanSum, varSum, containsd, List.contains, List.elem,
    bind, Except.bind, pure, Except.pure]
  all_goals decide

/-- C3, amended: whenever the memoized radicand (the scaled standard
deviation squared) evaluates to zero, `z_score_for` raises the built-in
`ZeroDivisionError` — an explicit error rather than a silent `inf`/`nan`,
but not a dedicated `DegenerateDistributionError` class, which the code
never defines. -/
theorem C3_amended_degenerate_raises_zero_division (s : Subject)
    (mark mu : ℚ) (s₁ s₂ : Subject)
    (hm : s.scaled_mean = .ok (mu, s₁))
    (hv : s₁.scaled_variance = .ok (0, s₂)) :
    s.z_score_for mark = .error .zeroDivisionError := by
  unfold Subject.z_score_for
  rw [hm]
  simp only [bind, Except.bind, pure, Except.pure]
  rw [hv]
  simp [bind, Except.bind, pure, Except.pure, throw, throwThe,
    MonadExceptOf.throw]

theorem C3_witness :
    ∃ s₁ s₂ : Subject, ∃ mu : ℚ,
      degenerateSubject.scaled_mean = .ok (mu, s₁) ∧
      s₁.scaled_variance = .ok (0, s₂) ∧
      degenerateSubject.z_score_for 50 = .error .zeroDivisionError := by
  refine ⟨{ degenerateSubject with _memory := [("_mu", 84)] },
    { degenerateSubject with _memory := [("_mu", 84), ("_sigma", 0)] },
    84, ?_, ?_, ?_⟩
  · norm_num [degenerateSubject, Subject.scaled_mean, meanSum,
      Subject._midpoint, getd, setd, containsd, keysd, List.contains,
      List.elem, bind, Except.bind, pure, Except.pure]
    all_goals decide
  · norm_num [degenerateSubject, Subject.scaled_variance, varSum,
      Subject.scaled_mean, Subject._midpoint, getd, setd, containsd, keysd,
      List.contains, List.elem, bind, Except.bind, pure, Except.pure]
    all_goals decide
  · apply C3_amended_degenerate_raises_zero_division degenerateSubject 50 84
      { degenerateSubject with _memory := [("_mu", 84)] }
      { degenerateSubject with _memory := [("_mu", 84), ("_sigma", 0)] }
    · norm_num [degenerateSubject, Subject.scaled_mean, meanSum,
        Subject._midpoint, getd, setd, containsd, keysd, List.contains,
        List.elem, bind, Except.bind, pure, Except.pure]
      all_goals decide
    · norm_num [degenerateSubject, Subject.scaled_variance, varSum,
        Subject.scaled_mean, Subject._midpoint, getd, setd, containsd, keysd,
        List.contains, List.elem, bind, Except.bind, pure, Except.pure]
      all_goals decide

/-! ## Claim C7: the cumulative-walk sampler -/

/-- The walk as the spec describes it: the first grade at which the
running value `u` (less the weights seen so far) goes negative. -/
def firstNegativeGrade (w : String → ℚ) : List String → ℚ → Option String
  | [], _ => none
  | g :: gs, u =>
    if u - w g < 0 then some g else firstNegativeGrade w gs (u - w g)

/-- The sample the spec describes: the first grade whose cumulative weight
exceeds the draw, falling back to the last grade when the walk exhausts
the sequence. -/
def specSampleOne (w : String → ℚ) (gs : List String) (u : ℚ) : Option String :=
  match firstNegativeGrade w gs u with
  | some g => some g
  | none => gs.getLast?

theorem keysd_normalizeLoop : ∀ (gs : List String) (d : PyDict ℚ) (total : ℚ)
    (d' : PyDict ℚ), normalizeLoop gs d total = .ok d' → keysd d' = keysd d := by
  intro gs
  induction gs with
  | nil =>
    intro d total d' h
    unfold normalizeLoop at h
    rw [Except.ok.inj h]
  | cons g gs ih =>
    intro d total d' h
    cases hv : getd d g with
    | error e =>
      rw [normalizeLoop, hv] at h
      simp only [bind, Except.bind, pure, Except.pure] at h
      exact Except.noConfusion h
    | ok v =>
      by_cases ht : total = 0
      · rw [normalizeLoop, hv] at h
        simp only [bind, Except.bind, pure, Except.pure, ht, if_true,
          throw, throwThe, MonadExceptOf.throw] at h
        exact Except.noConfusion h
      · rw [normalizeLoop, hv] at h
        simp only [bind, Except.bind, pure, Except.pure, ht, if_false] at h
        have hmem : g ∈ keysd d :=
          (containsd_iff_mem d g).mp (containsd_of_getd_ok d g v hv)
        rw [ih _ _ _ h]
        exact keysd_setd_of_mem d g _ hmem

/-- The attributes `__init__` (on structured inputs) gives the new object,
as far as the sampler is concerned: sorted grade labels, a distribution
over the same keys as the raw input, an empty memo, and the boundary dict
passed through. -/
theorem subject_init_fields (sid : ℤ) (nm lv : String) (B : PyDict (ℚ × ℚ))
    (raw : PyDict ℚ) (s : Subject)
    (h : subject_init sid nm lv (.inl B) (.inl raw) = .ok s) :
    s._grades = (keysd raw).insertionSort strle ∧
    keysd s.distribution = keysd raw ∧
    s._memory = [] ∧ s.boundaries = B := by
  unfold subject_init _convert_bounds _convert_distribution at h
  simp only [bind, Except.bind, pure, Except.pure, Functor.map,
    Except.map] at h
  cases hnl : normalizeLoop ((keysd raw).insertionSort strle) raw
      ((valuesd raw).sum) with
  | error e =>
    rw [hnl] at h
    exact Except.noConfusion h
  | ok d' =>
    rw [hnl] at h
    have hs := (Except.ok.injEq .. ▸ h)
    rw [← hs]
    exact ⟨rfl, keysd_normalizeLoop _ _ _ _ hnl, rfl, rfl⟩

theorem gradeWalk_eval : ∀ (gs : List String) (dist : PyDict ℚ) (u : ℚ),
    gs ≠ [] → (∀ g ∈ gs, g ∈ keysd dist) →
    ∃ g, gradeWalk dist gs u = .ok g ∧
      specSampleOne (fun g' => getd0 dist g') gs u = some g ∧ g ∈ gs := by
  intro gs
  induction gs with
  | nil => intro dist u hne _; exact absurd rfl hne
  | cons g gs ih =>
    intro dist u _ hcov
    obtain ⟨w, hw⟩ := getd_ok_of_mem_keys dist g
      (hcov g (List.mem_cons_self g gs))
    have hw0 : getd0 dist g = w := getd0_eq dist g w hw
    by_cases hneg : u - w < 0
    · refine ⟨g, ?_, ?_, List.mem_cons_self g gs⟩
      · unfold gradeWalk
        rw [hw]
        simp only [bind, Except.bind, pure, Except.pure]
        rw [if_pos hneg]
      · unfold specSampleOne firstNegativeGrade
        rw [hw0, if_pos hneg]
    · cases gs with
      | nil =>
        refine ⟨g, ?_, ?_, List.mem_cons_self g []⟩
        · unfold gradeWalk
          rw [hw]
          simp only [bind, Except.bind, pure, Except.pure]
          rw [if_neg hneg]
        · unfold specSampleOne firstNegativeGrade
          rw [hw0, if_neg hneg]
          simp [firstNegativeGrade]
      | cons g' gs' =>
        obtain ⟨gr, hwalk, hspec, hmem⟩ := ih dist (u - w) (by simp)
          (fun x hx => hcov x (List.mem_cons_of_mem g hx))
        refine ⟨gr, ?_, ?_, List.mem_cons_of_mem g hmem⟩
        · unfold gradeWalk
          rw [hw]
          simp only [bind, Except.bind, pure, Except.pure]
          rw [if_neg hneg]
          exact hwalk
        · unfold specSampleOne at hspec ⊢
          unfold firstNegativeGrade
          rw [hw0, if_neg hneg]
          cases hfn : firstNegativeGrade (fun g'' => getd0 dist g'')
              (g' :: gs') (u - w) with
          | some x => rw [hfn] at hspec; exact hspec
          | none =>
            rw [hfn] at hspec
            rw [List.getLast?_cons_cons]
            exact hspec

/-- C7: on a `Subject` constructed by `__init__` whose grade set is
non-empty, `random_grade` (the `sample_one` of the spec) walks the
lexicographically sorted grade sequence subtracting each weight from the
uniform draw and returns the first grade at which the running value goes
negative — falling back, when the loop exhausts the sequence, to the last
grade rather than failing — so the result is always one of the grades. -/
theorem C7_random_grade_walk (sid : ℤ) (nm lv : String) (B : PyDict (ℚ × ℚ))
    (raw : PyDict ℚ) (s : Subject) (u : ℚ)
    (hinit : subject_init sid nm lv (.inl B) (.inl raw) = .ok s)
    (hne : s._grades ≠ []) :
    List.Sorted strle s._grades ∧
    ∃ g, s.random_grade u = .ok g ∧
      specSampleOne (fun g' => getd0 s.distribution g') s._grades u = some g ∧
      g ∈ s._grades := by
  obtain ⟨hg, hk, _, _⟩ := subject_init_fields sid nm lv B raw s hinit
  refine ⟨hg ▸ List.sorted_insertionSort strle (keysd raw), ?_⟩
  have hcov : ∀ g ∈ s._grades, g ∈ keysd s.distribution := by
    intro g hgmem
    rw [hk]
    exact (List.perm_insertionSort strle (keysd raw)).mem_iff.mp (hg ▸ hgmem)
  simpa [Subject.random_grade] using
    gradeWalk_eval s._grades s.distribution u hne hcov

/-- A concrete two-grade subject as `__init__` produces it. -/
def sampler7 : Subject :=
  { subject_id := 5, name := "Physics", level := "SL",
    boundaries := [("4", (0, 50)), ("5", (51, 100))],
    distribution := [("4", 1/2), ("5", 1/2)],
    _grades := ["4", "5"], _memory := [] }

theorem sampler7_init :
    subject_init 5 "Physics" "SL" (.inl [("4", (0, 50)), ("5", (51, 100))])
      (.inl [("4", (1:ℚ)/2), ("5", (1:ℚ)/2)]) = .ok sampler7 := by
  rw [subject_init_inl_char 5 "Physics" "SL" _ _ (by decide)
    (by norm_num [valuesd])]
  norm_num [sampler7, valuesd, keysd, List.insertionSort,
    List.orderedInsert, show strle "4" "5" from by decide]

theorem C7_witness :
    subject_init 5 "Physics" "SL" (.inl [("4", (0, 50)), ("5", (51, 100))])
      (.inl [("4", (1:ℚ)/2), ("5", (1:ℚ)/2)]) = .ok sampler7 ∧
    sampler7._grades ≠ [] ∧
    (List.Sorted strle sampler7._grades ∧
     ∃ g, sampler7.random_grade (3/4) = .ok g ∧
       specSampleOne (fun g' => getd0 sampler7.distribution g')
         sampler7._grades (3/4) = some g ∧
       g ∈ sampler7._grades) :=
  ⟨sampler7_init, by decide,
    C7_random_grade_walk 5 "Physics" "SL" _ _ sampler7 (3/4)
      sampler7_init (by decide)⟩

/-! ## Claim C8: the bootstrap confidence interval -/

theorem mapM_ok_length {α β : Type} (f : α → Except PyError β) :
    ∀ (l : List α) (ys : List β), l.mapM f = .ok ys → ys.length = l.length := by
  intro l
  induction l with
  | nil =>
    intro ys h
    simp only [List.mapM_nil, pure, Except.pure] at h
    rw [← Except.ok.inj h]
    rfl
  | cons a l ih =>
    intro ys h
    rw [List.mapM_cons] at h
    cases hfa : f a with
    | error e =>
      rw [hfa] at h
      simp only [bind, Except.bind, pure, Except.pure] at h
      exact Except.noConfusion h
    | ok b =>
      rw [hfa] at h
      simp only [bind, Except.bind, pure, Except.pure] at h
      cases hml : l.mapM f with
      | error e =>
        rw [hml] at h
        simp only [bind, Except.bind, pure, Except.pure] at h
        exact Except.noConfusion h
      | ok bs =>
        rw [hml] at h
        simp only [bind, Except.bind, pure, Except.pure] at h
        rw [← Except.ok.inj h]
        simp [ih bs hml]

/-- C8: for `0 ≤ p < 1` and at least two successful bootstrap trials,
`average_grade_confidence_interval` sorts the trial means ascending and
returns the `(0.5 - p/2)`- and `(0.5 + p/2)`-tiles of the sorted sequence,
and the returned pair satisfies `low ≤ high`. -/
theorem C8_confidence_interval_sorted_tiles (s : Subject) (n : ℕ) (p : ℚ)
    (simulations : ℕ) (us : ℕ → ℕ → ℚ) (means : List ℚ)
    (hp0 : 0 ≤ p) (hp1 : p < 1) (hsim : 2 ≤ simulations)
    (htr : (List.range simulations).mapM
      (fun i => s.bootstrap_grade_average n defaultTransform (us i)) =
        .ok means) :
    ∃ low high,
      _tile (means.insertionSort (· ≤ ·)) (1/2 - p/2) = .ok low ∧
      _tile (means.insertionSort (· ≤ ·)) (1/2 + p/2) = .ok high ∧
      s.average_grade_confidence_interval n p simulations us =
        .ok (low, high) ∧
      low ≤ high := by
  have hlen : (means.insertionSort (· ≤ ·)).length = simulations := by
    rw [(List.perm_insertionSort _ means).length_eq]
    rw [mapM_ok_length _ _ _ htr, List.length_range]
  have hlen2 : 2 ≤ (means.insertionSort (· ≤ ·)).length := by omega
  have hsorted : List.Sorted (· ≤ ·) (means.insertionSort (· ≤ ·)) :=
    List.sorted_insertionSort (· ≤ ·) means
  have hlow0 : (0:ℚ) ≤ 1/2 - p/2 := by linarith
  have hlow1 : (1:ℚ)/2 - p/2 < 1 := by linarith
  have hhigh1 : (1:ℚ)/2 + p/2 < 1 := by linarith
  have hple : (1:ℚ)/2 - p/2 ≤ 1/2 + p/2 := by linarith
  obtain ⟨k1, _, _, _, hlowE⟩ :=
    tile_eval (means.insertionSort (· ≤ ·)) (1/2 - p/2) hlow0 hlow1 hlen2
  obtain ⟨k2, _, _, _, hhighE⟩ :=
    tile_eval (means.insertionSort (· ≤ ·)) (1/2 + p/2)
      (le_trans hlow0 hple) hhigh1 hlen2
  refine ⟨_, _, hlowE, hhighE, ?_, ?_⟩
  · unfold Subject.average_grade_confidence_interval
    rw [if_neg (by simp [hp0, hp1])]
    rw [htr]
    simp only [bind, Except.bind, pure, Except.pure]
    rw [hlowE]
    simp only [bind, Except.bind, pure, Except.pure]
    rw [hhighE]
  · exact tile_mono (means.insertionSort (· ≤ ·)) hsorted hlen2
      hlow0 hple hhigh1 hlowE hhighE

/-- A concrete one-grade subject for exercising the bootstrap. -/
def sampler4 : Subject :=
  { subject_id := 9, name := "Chemistry", level := "SL",
    boundaries := [("4", (0, 100))], distribution := [("4", 1)],
    _grades := ["4"], _memory := [] }

theorem sampler4_trials :
    (List.range 2).mapM (fun i => sampler4.bootstrap_grade_average 1
      defaultTransform ((fun _ _ => 0) i)) = .ok [4, 4] := by
  norm_num [List.range_succ, List.mapM_cons, List.mapM_nil,
    List.mapM, List.mapM.loop,
    Subject.bootstrap_grade_average, Subject.random_grade_sample,
    Subject.random_grade, gradeWalk, sumTransform, defaultTransform,
    pyFloatOfValue, getd, sampler4, bind, Except.bind, pure, Except.pure,
    show (("4":String) ≠ "" ∧ ("4":String).toList.all Char.isDigit) from
      by decide,
    show ('4').isDigit = true from by decide,
    show digitsToNat ['4'] 0 = 4 from by decide]

theorem C8_witness :
    (0:ℚ) ≤ 1/2 ∧ (1:ℚ)/2 < 1 ∧ 2 ≤ 2 ∧
    (List.range 2).mapM (fun i => sampler4.bootstrap_grade_average 1
      defaultTransform ((fun _ _ => (0:ℚ)) i)) = .ok [4, 4] ∧
    (∃ low high,
      _tile ([(4:ℚ), 4].insertionSort (· ≤ ·)) (1/2 - (1/2)/2) = .ok low ∧
      _tile ([(4:ℚ), 4].insertionSort (· ≤ ·)) (1/2 + (1/2)/2) = .ok high ∧
      sampler4.average_grade_confidence_interval 1 (1/2) 2
        (fun _ _ => 0) = .ok (low, high) ∧
      low ≤ high) :=
  ⟨by norm_num, by norm_num, by norm_num, sampler4_trials,
    C8_confidence_interval_sorted_tiles sampler4 1 (1/2) 2 (fun _ _ => 0)
      [4, 4] (by norm_num) (by norm_num) (by norm_num) sampler4_trials⟩

/-! ## Claim C1: the textual deserializer executes arbitrary code -/

/-- C1 (violated by the code — `eval` is not a restricted literal parser):
a stored boundary text whose parsed form contains a call — i.e. text
*outside* the literal grammar of numbers, strings, tuples and mappings,
such as `{"A": (0, __import__("os").system("payload"))}` — is not rejected
with any error at all: `_convert_bounds` hands it to `eval`, which runs
the call (`hasCall` marks the execution of non-literal code) and the
deserializer accepts the resulting mapping. -/
theorem C1_eval_executes_nonliteral_code :
    PyExpr.hasCall
      (.dict [(.str "A", .tup [.num 0, .call "system" (.str "payload")])]) =
        true ∧
    _convert_bounds
      (.inr (.dict [(.str "A",
        .tup [.num 0, .call "system" (.str "payload")])])) =
      .ok [("A", (0, 0))] := by
  constructor
  · decide
  · decide

end DpStat
